import Mathlib

/-!
Shallow embedding of the Connect-4 game engine from `src/connect4/src/main.rs`,
together with proofs checking the natural-language specification against it.

Modelling conventions:
* `Vec<Option<usize>>` becomes `List (Option Nat)`; the Rust index read
  `board[i]` becomes `cell b i = b.getD i none` (every board the program
  constructs has length `ROWS * COLS = 42`, so all reads the code performs are
  in bounds and `getD` coincides with real indexing).
* In-place mutation (`&mut Connect4State`) becomes explicit state passing:
  `apply_action` returns the updated state alongside the Rust return value, so
  "the call leaves the state unchanged" is the statement that the returned
  state equals the input state.
* The `f32` scores of `mcts_agent` are modelled in `ℚ`.  The concrete scores
  are `k / 100.0` with `k : i32`, `|k| ≤ 100`; these values are exactly
  representable in `f32` and `k ↦ k / 100.0` is strictly monotone, so `f32`
  comparison of two scores agrees with the `ℚ` comparison modelled here.
* Randomness is modelled by explicit data: `rand_agent`'s `thread_rng` becomes
  a stream `rng : Nat → Nat` of samples, and its rejection loop becomes a
  fuel-indexed recursion returning `none` when no legal action was found within
  the fuel; the 100 random playout results per candidate column of `mcts_agent`
  become a parameter `sims : Nat → List Connect4Result`.
* Nonterminating loops (`loop { .. }` in `play` and `rand_agent`) become
  fuel-indexed recursions returning `Option`, `none` marking fuel exhaustion.
-/

namespace Chaos

/-- Rust source: `const ROWS: usize = 6;` -/
def ROWS : Nat := 6

/-- Rust source: `const COLS: usize = 7;` -/
def COLS : Nat := 7

/-- Rust source: `pub struct Connect4Action`, one `column: usize` field. -/
structure Connect4Action where
  column : Nat
deriving DecidableEq

/-- Rust source: `pub struct Connect4State`, fields `board: Vec<Option<usize>>` and `next_player: usize`. -/
structure Connect4State where
  board : List (Option Nat)
  next_player : Nat
deriving DecidableEq

/-- Rust `Default for Connect4State`: empty 42-cell board, player 0 to move. -/
def newGame : Connect4State :=
  ⟨List.replicate (ROWS * COLS) none, 0⟩

/-- Rust source: `pub enum Connect4Result`, variants `Winner(usize)` and `Tie`. -/
inductive Connect4Result where
  | Winner : Nat → Connect4Result
  | Tie : Connect4Result
deriving DecidableEq

/-- Rust source: `pub enum Connect4Check`, variants `InProgress` and `Over(Connect4Result)`. -/
inductive Connect4Check where
  | InProgress : Connect4Check
  | Over : Connect4Result → Connect4Check
deriving DecidableEq

/-- The board read `state.board[i]` (all reads performed by the code are in
bounds on the 42-cell boards the program builds). -/
def cell (b : List (Option Nat)) (i : Nat) : Option Nat :=
  b.getD i none

/-- One four-cell window test of `check_state`: the Rust
`match (b[i1], b[i2], b[i3], b[i4]) { (Some(i), Some(j), Some(k), Some(l)) if i==j && j==k && k==l => return Over(Winner(i)), _ => () }`,
as an `Option` so that the early `return` becomes `findSome?`. -/
def winAt (b : List (Option Nat)) (i1 i2 i3 i4 : Nat) : Option Nat :=
  match cell b i1, cell b i2, cell b i3, cell b i4 with
  | some i, some j, some k, some l => if i = j ∧ j = k ∧ k = l then some i else none
  | _, _, _, _ => none

/-- The vertical scan of `check_state`: `for col in 0..COLS { for row in 0..3 { .. } }`
with cells `col*ROWS + row + 0 .. + 3`. -/
def checkVertical (b : List (Option Nat)) : Option Nat :=
  (List.range COLS).findSome? fun col =>
    (List.range 3).findSome? fun row =>
      winAt b (col * ROWS + row) (col * ROWS + row + 1)
        (col * ROWS + row + 2) (col * ROWS + row + 3)

/-- The horizontal scan of `check_state`: `for row in 0..ROWS { for col in 0..4 { .. } }`
with cells `(col+0)*ROWS + row .. (col+3)*ROWS + row`. -/
def checkHorizontal (b : List (Option Nat)) : Option Nat :=
  (List.range ROWS).findSome? fun row =>
    (List.range 4).findSome? fun col =>
      winAt b (col * ROWS + row) ((col + 1) * ROWS + row)
        ((col + 2) * ROWS + row) ((col + 3) * ROWS + row)

/-- The diagonal-up scan of `check_state`: `for col in 0..4 { for row in 0..3 { .. } }`
with cells `(col+i)*ROWS + row + i`. -/
def checkDiagUp (b : List (Option Nat)) : Option Nat :=
  (List.range 4).findSome? fun col =>
    (List.range 3).findSome? fun row =>
      winAt b (col * ROWS + row) ((col + 1) * ROWS + (row + 1))
        ((col + 2) * ROWS + (row + 2)) ((col + 3) * ROWS + (row + 3))

/-- The diagonal-down scan of `check_state`: `for col in 0..4 { for row in 3..6 { .. } }`
with cells `(col+i)*ROWS + row - i`. -/
def checkDiagDown (b : List (Option Nat)) : Option Nat :=
  (List.range 4).findSome? fun col =>
    (List.range' 3 3).findSome? fun row =>
      winAt b (col * ROWS + row) ((col + 1) * ROWS + (row - 1))
        ((col + 2) * ROWS + (row - 2)) ((col + 3) * ROWS + (row - 3))

/-- The four scans of `check_state` in source order, each early-returning. -/
def firstWin (b : List (Option Nat)) : Option Nat :=
  match checkVertical b with
  | some p => some p
  | none =>
    match checkHorizontal b with
    | some p => some p
    | none =>
      match checkDiagUp b with
      | some p => some p
      | none => checkDiagDown b

/-- Rust `pub fn check_state(state: &Connect4State) -> Connect4Check`: the four
window scans, then the tie check `for col in 0..COLS { if board[col*ROWS+ROWS-1].is_none() { return InProgress } }; Over(Tie)`. -/
def check_state (s : Connect4State) : Connect4Check :=
  match firstWin s.board with
  | some p => .Over (.Winner p)
  | none =>
    if (List.range COLS).all (fun col => (cell s.board (col * ROWS + ROWS - 1)).isSome) then
      .Over .Tie
    else
      .InProgress

/-- Rust source: `pub enum ActionError`, variants `UnknownColumn(usize)` and `FullColumn(usize)`. -/
inductive ActionError where
  | UnknownColumn : Nat → ActionError
  | FullColumn : Nat → ActionError
deriving DecidableEq

/-- Rust `pub fn check_action(state, action) -> bool`:
`if action.column >= COLS { return false }; board[column*ROWS + ROWS-1].is_none()`. -/
def check_action (s : Connect4State) (a : Connect4Action) : Bool :=
  if COLS ≤ a.column then false
  else (cell s.board (a.column * ROWS + ROWS - 1)).isNone

/-- The row-scan of `apply_action`: `for row in 0..ROWS { if board[column*ROWS+row].is_none() { .. } }`,
returning the first empty row of the column, if any. -/
def dropRow? (b : List (Option Nat)) (col : Nat) : Option Nat :=
  (List.range ROWS).find? fun row => (cell b (col * ROWS + row)).isNone

/-- Rust `pub fn apply_action(state: &mut Connect4State, action) -> Result<Connect4Check, ActionError>`.
The `&mut` state is made explicit: the returned pair is (state after the call,
Rust return value).  On the error paths the code performed no write, so the
input state is returned unchanged. -/
def apply_action (s : Connect4State) (a : Connect4Action) :
    Connect4State × Except ActionError Connect4Check :=
  if COLS ≤ a.column then (s, .error (.UnknownColumn a.column))
  else
    match dropRow? s.board a.column with
    | some row =>
      let s' : Connect4State :=
        ⟨s.board.set (a.column * ROWS + row) (some s.next_player), 1 - s.next_player⟩
      (s', .ok (check_state s'))
    | none => (s, .error (.FullColumn a.column))

/-- Rust `fn play(state, blue_agent, red_agent) -> Result<Connect4Result, ActionError>`
with total agents.  The Rust `loop` becomes a fuel-indexed recursion; `none`
marks fuel exhaustion.  Each loop iteration asks the agent of `next_player`
for an action, applies it (propagating errors with `?`), then — exactly as the
source does — re-runs `check_state` on the updated state and stops on `Over`. -/
def playFuel (blue red : Connect4State → Connect4Action) :
    Nat → Connect4State → Option (Except ActionError Connect4Result)
  | 0, _ => none
  | fuel + 1, s =>
    match apply_action s (if s.next_player = 0 then blue s else red s) with
    | (_, .error e) => some (.error e)
    | (s', .ok _) =>
      match check_state s' with
      | .Over result => some (.ok result)
      | .InProgress => playFuel blue red fuel s'

/-- Variant of `play` with possibly-diverging agents: an agent returning `none` stands for
an agent whose internal loop (e.g. `rand_agent`'s rejection sampling) does not
return within its own fuel. -/
def playOpt (blue red : Connect4State → Option Connect4Action) :
    Nat → Connect4State → Option (Except ActionError Connect4Result)
  | 0, _ => none
  | fuel + 1, s =>
    match (if s.next_player = 0 then blue s else red s) with
    | none => none
    | some action =>
      match apply_action s action with
      | (_, .error e) => some (.error e)
      | (s', .ok _) =>
        match check_state s' with
        | .Over result => some (.ok result)
        | .InProgress => playOpt blue red fuel s'

/-- The states on which `play` queries an agent, in order: every iteration of
the Rust `loop` first evaluates `blue_agent(state)` / `red_agent(state)` on the
current state, before any terminal check on it. -/
def agentQueryStates (blue red : Connect4State → Option Connect4Action) :
    Nat → Connect4State → List Connect4State
  | 0, _ => []
  | fuel + 1, s =>
    s ::
      (match (if s.next_player = 0 then blue s else red s) with
      | none => []
      | some action =>
        match apply_action s action with
        | (_, .error _) => []
        | (s', .ok _) =>
          match check_state s' with
          | .Over _ => []
          | .InProgress => agentQueryStates blue red fuel s')

/-- The rejection-sampling loop of `fn rand_agent`:
`loop { let action = Connect4Action { column: rng.gen_range(0..COLS) }; if check_action(state, &action) { return action } }`.
The random generator is the stream `rng`, read at positions `k, k+1, ...`;
`t` is fuel for the loop, `none` meaning no legal sample among the first `t`. -/
def randAgentLoop (rng : Nat → Nat) : Nat → Nat → Connect4State → Option Connect4Action
  | 0, _, _ => none
  | t + 1, k, s =>
    let action : Connect4Action := ⟨rng k % COLS⟩
    if check_action s action then some action else randAgentLoop rng t (k + 1) s

/-- Rust `rand_agent` as an optional agent: run the rejection loop from stream
position 0 with fuel `t`. -/
def randAgentO (rng : Nat → Nat) (t : Nat) (s : Connect4State) : Option Connect4Action :=
  randAgentLoop rng t 0 s

/-- One simulation's contribution inside `mcts_agent`:
`match play(..) { Winner(winner) => if winner == player { 1 } else { -1 }, Tie => 0 }`. -/
def simValue (player : Nat) : Connect4Result → Int
  | .Winner w => if w = player then 1 else -1
  | .Tie => 0

/-- The per-column score of `mcts_agent`: the sum of the 100 simulation
contributions, divided by `100.` (modelled in `ℚ`, see the header comment). -/
def simScore (player : Nat) (results : List Connect4Result) : ℚ :=
  (((results.map (simValue player)).sum : Int) : ℚ) / 100

/-- The candidate columns of `mcts_agent`:
`(0..COLS) .map(|col| Connect4Action { column: col }) .filter(|action| check_action(state, action))`. -/
def mcts_candidates (s : Connect4State) : List Nat :=
  (List.range COLS).filter fun c => check_action s ⟨c⟩

/-- Rayon's `max_by(|(_, s1), (_, s2)| s1.partial_cmp(s2) .unwrap())`:
its reduction operator keeps the earlier element only when strictly greater,
so among equal maxima the element with the highest index wins (rayon documents
this; the operator is associative, so the reduction tree shape is irrelevant
and this sequential right fold computes the same result). -/
def maxByLast : List (Nat × ℚ) → Option (Nat × ℚ)
  | [] => none
  | x :: xs =>
    match maxByLast xs with
    | none => some x
    | some a => if a.2 < x.2 then some x else some a

/-- Rust `fn mcts_agent(state) -> Connect4Action`, with the 100 random playouts of
candidate column `c` abstracted as the outcome list `sims c` (each playout is a
`play(rand_agent, rand_agent)` run from the successor of `c`).  `player` is
`state.next_player`, read before any action is applied.  The final
`.max_by(..).map(|(action, _)| action).unwrap()` is modelled as `Option`. -/
def mcts_agent (sims : Nat → List Connect4Result) (s : Connect4State) :
    Option Connect4Action :=
  (maxByLast ((mcts_candidates s).map fun c => (c, simScore s.next_player (sims c)))).map
    fun x => ⟨x.1⟩

instance {ε α : Type} [DecidableEq ε] [DecidableEq α] : DecidableEq (Except ε α) := fun x y =>
  match x, y with
  | .ok a, .ok b => if h : a = b then isTrue (by rw [h]) else isFalse (by simp [h])
  | .error a, .error b => if h : a = b then isTrue (by rw [h]) else isFalse (by simp [h])
  | .ok _, .error _ => isFalse (by simp)
  | .error _, .ok _ => isFalse (by simp)

/-! ### Concrete states used as witnesses and counterexamples -/

/-- A completely full board with no four-in-a-row: cell `(c, r)` holds
`(c + g r) % 2` with `g = [0,0,1,1,0,0]`, except the top of column 6, which
holds player 1 (so that the board arises from `s41` below by player 1 moving).
Listed column-major, each column bottom row first. -/
def fullTieBoard : List (Option Nat) :=
  [some 0, some 0, some 1, some 1, some 0, some 0,
   some 1, some 1, some 0, some 0, some 1, some 1,
   some 0, some 0, some 1, some 1, some 0, some 0,
   some 1, some 1, some 0, some 0, some 1, some 1,
   some 0, some 0, some 1, some 1, some 0, some 0,
   some 1, some 1, some 0, some 0, some 1, some 1,
   some 0, some 0, some 1, some 1, some 0, some 1]

/-- The full tie board as a state; the mover of the last piece was player 1,
so player 0 is `next_player`. -/
def sFull : Connect4State := ⟨fullTieBoard, 0⟩

/-- Board `fullTieBoard` with its last-filled cell (top of column 6) still empty. -/
def board41 : List (Option Nat) :=
  [some 0, some 0, some 1, some 1, some 0, some 0,
   some 1, some 1, some 0, some 0, some 1, some 1,
   some 0, some 0, some 1, some 1, some 0, some 0,
   some 1, some 1, some 0, some 0, some 1, some 1,
   some 0, some 0, some 1, some 1, some 0, some 0,
   some 1, some 1, some 0, some 0, some 1, some 1,
   some 0, some 0, some 1, some 1, some 0, none]

/-- A 41-cell in-progress state with exactly one legal column (column 6),
player 1 to move; playing column 6 produces the terminal state `sFull`. -/
def s41 : Connect4State := ⟨board41, 1⟩

/-- A constant random stream (every sample is column 0). -/
def rngZero : Nat → Nat := fun _ => 0

/-- Simulation outcomes in which each candidate column's 100 playouts are all
ties, so every candidate scores exactly 0. -/
def simTies : Nat → List Connect4Result := fun _ => List.replicate 100 .Tie

/-! ### Spec-side predicates (from the specification's words) -/

/-- Spec-side: the four cells at the given indices are all owned by one player. -/
def sameFour (b : List (Option Nat)) (i1 i2 i3 i4 : Nat) : Prop :=
  ∃ p, cell b i1 = some p ∧ cell b i2 = some p ∧ cell b i3 = some p ∧ cell b i4 = some p

/-- Spec-side: the board contains four cells of one player forming a contiguous
line in one of the four directions (vertical, horizontal, diagonal-up,
diagonal-down), using the spec's column-major layout `c*ROWS + r`, `r = 0` the
bottom row.  The bounds range over every window of the 6×7 grid. -/
def hasFourLine (b : List (Option Nat)) : Prop :=
  (∃ c, c < COLS ∧ ∃ r, r + 3 < ROWS ∧
    sameFour b (c * ROWS + r) (c * ROWS + r + 1) (c * ROWS + r + 2) (c * ROWS + r + 3)) ∨
  (∃ r, r < ROWS ∧ ∃ c, c + 3 < COLS ∧
    sameFour b (c * ROWS + r) ((c + 1) * ROWS + r) ((c + 2) * ROWS + r) ((c + 3) * ROWS + r)) ∨
  (∃ c, c + 3 < COLS ∧ ∃ r, r + 3 < ROWS ∧
    sameFour b (c * ROWS + r) ((c + 1) * ROWS + (r + 1)) ((c + 2) * ROWS + (r + 2))
      ((c + 3) * ROWS + (r + 3))) ∨
  (∃ c, c + 3 < COLS ∧ ∃ r, 3 ≤ r ∧ r < ROWS ∧
    sameFour b (c * ROWS + r) ((c + 1) * ROWS + (r - 1)) ((c + 2) * ROWS + (r - 2))
      ((c + 3) * ROWS + (r - 3)))

/-- Number of occupied cells of a board. -/
def occupiedCount (b : List (Option Nat)) : Nat :=
  b.countP fun o => o.isSome

/-- Spec-side bottom-up fill invariant: in every column the occupied cells form
a contiguous bottom-up prefix — no occupied cell has an empty cell beneath it. -/
def bottomUpInv (b : List (Option Nat)) : Prop :=
  ∀ c, c < COLS → ∀ r, r < ROWS - 1 →
    (cell b (c * ROWS + (r + 1))).isSome → (cell b (c * ROWS + r)).isSome

/-- Spec-side: the state has at least one legal column. -/
def hasLegal (s : Connect4State) : Prop :=
  ∃ c, c < COLS ∧ check_action s ⟨c⟩ = true

instance (b : List (Option Nat)) : Decidable (bottomUpInv b) := by
  unfold bottomUpInv
  infer_instance

/-- A deterministic agent that plays the first legal column (a total stand-in
for `rand_agent`, which also only returns legal columns — via its
`check_action` rejection test — whenever it returns at all). -/
def firstLegalAgent (s : Connect4State) : Connect4Action :=
  ⟨((List.range COLS).find? fun c => check_action s ⟨c⟩).getD 0⟩

/-- Spec-side: simulations counted as wins for `player`. -/
def winsCount (player : Nat) (l : List Connect4Result) : Nat :=
  l.countP fun r => match r with
    | .Winner w => decide (w = player)
    | .Tie => false

/-- Spec-side: simulations counted as losses for `player`. -/
def lossesCount (player : Nat) (l : List Connect4Result) : Nat :=
  l.countP fun r => match r with
    | .Winner w => decide (¬ w = player)
    | .Tie => false

/-- Spec-side: simulations counted as ties. -/
def tiesCount (l : List Connect4Result) : Nat :=
  l.countP fun r => match r with
    | .Winner _ => false
    | .Tie => true

/-- Spec-side score: `(wins − losses) / (wins + losses + ties)` from the
mover's perspective. -/
def scoreSpec (player : Nat) (l : List Connect4Result) : ℚ :=
  ((winsCount player l : ℚ) - (lossesCount player l : ℚ)) /
    ((winsCount player l : ℚ) + (lossesCount player l : ℚ) + (tiesCount l : ℚ))

/-! ### The terminal detector: window lemmas -/

lemma winAt_isSome_iff (b : List (Option Nat)) (i1 i2 i3 i4 : Nat) :
    (winAt b i1 i2 i3 i4).isSome = true ↔ sameFour b i1 i2 i3 i4 := by
  constructor
  · intro h
    unfold winAt at h
    split at h
    · rename_i p1 p2 p3 p4 e1 e2 e3 e4
      split at h
      · rename_i hc
        exact ⟨p1, e1, by rw [e2, ← hc.1], by rw [e3, ← hc.2.1, ← hc.1],
          by rw [e4, ← hc.2.2, ← hc.2.1, ← hc.1]⟩
      · simp at h
    · simp at h
  · rintro ⟨p, e1, e2, e3, e4⟩
    unfold winAt
    rw [e1, e2, e3, e4]
    simp

lemma winAt_eq_some (b : List (Option Nat)) (i1 i2 i3 i4 p : Nat)
    (h : winAt b i1 i2 i3 i4 = some p) :
    cell b i1 = some p ∧ cell b i2 = some p ∧ cell b i3 = some p ∧ cell b i4 = some p := by
  unfold winAt at h
  split at h
  · rename_i p1 p2 p3 p4 e1 e2 e3 e4
    split at h
    · rename_i hc
      have hp : p1 = p := by simpa using h
      exact ⟨by rw [e1, hp], by rw [e2, ← hc.1, hp], by rw [e3, ← hc.2.1, ← hc.1, hp],
        by rw [e4, ← hc.2.2, ← hc.2.1, ← hc.1, hp]⟩
    · simp at h
  · simp at h

lemma checkVertical_isSome_iff (b : List (Option Nat)) :
    (checkVertical b).isSome = true ↔
      ∃ c, c < COLS ∧ ∃ r, r + 3 < ROWS ∧
        sameFour b (c * ROWS + r) (c * ROWS + r + 1) (c * ROWS + r + 2) (c * ROWS + r + 3) := by
  unfold checkVertical
  simp only [List.findSome?_isSome_iff, List.mem_range, winAt_isSome_iff]
  constructor
  · rintro ⟨c, hc, r, hr, h⟩
    exact ⟨c, hc, r, by unfold ROWS; omega, h⟩
  · rintro ⟨c, hc, r, hr, h⟩
    exact ⟨c, hc, r, by unfold ROWS at hr; omega, h⟩

lemma checkHorizontal_isSome_iff (b : List (Option Nat)) :
    (checkHorizontal b).isSome = true ↔
      ∃ r, r < ROWS ∧ ∃ c, c + 3 < COLS ∧
        sameFour b (c * ROWS + r) ((c + 1) * ROWS + r) ((c + 2) * ROWS + r)
          ((c + 3) * ROWS + r) := by
  unfold checkHorizontal
  simp only [List.findSome?_isSome_iff, List.mem_range, winAt_isSome_iff]
  constructor
  · rintro ⟨r, hr, c, hc, h⟩
    exact ⟨r, hr, c, by unfold COLS; omega, h⟩
  · rintro ⟨r, hr, c, hc, h⟩
    exact ⟨r, hr, c, by unfold COLS at hc; omega, h⟩

lemma checkDiagUp_isSome_iff (b : List (Option Nat)) :
    (checkDiagUp b).isSome = true ↔
      ∃ c, c + 3 < COLS ∧ ∃ r, r + 3 < ROWS ∧
        sameFour b (c * ROWS + r) ((c + 1) * ROWS + (r + 1)) ((c + 2) * ROWS + (r + 2))
          ((c + 3) * ROWS + (r + 3)) := by
  unfold checkDiagUp
  simp only [List.findSome?_isSome_iff, List.mem_range, winAt_isSome_iff]
  constructor
  · rintro ⟨c, hc, r, hr, h⟩
    exact ⟨c, by unfold COLS; omega, r, by unfold ROWS; omega, h⟩
  · rintro ⟨c, hc, r, hr, h⟩
    exact ⟨c, by unfold COLS at hc; omega, r, by unfold ROWS at hr; omega, h⟩

lemma checkDiagDown_isSome_iff (b : List (Option Nat)) :
    (checkDiagDown b).isSome = true ↔
      ∃ c, c + 3 < COLS ∧ ∃ r, 3 ≤ r ∧ r < ROWS ∧
        sameFour b (c * ROWS + r) ((c + 1) * ROWS + (r - 1)) ((c + 2) * ROWS + (r - 2))
          ((c + 3) * ROWS + (r - 3)) := by
  unfold checkDiagDown
  simp only [List.findSome?_isSome_iff, List.mem_range, List.mem_range'_1, winAt_isSome_iff]
  constructor
  · rintro ⟨c, hc, r, hr, h⟩
    exact ⟨c, by unfold COLS; omega, r, hr.1, by unfold ROWS; omega, h⟩
  · rintro ⟨c, hc, r, h3, hr, h⟩
    exact ⟨c, by unfold COLS at hc; omega, r, ⟨h3, by unfold ROWS at hr; omega⟩, h⟩

/-- The four scans of `check_state` together find a winner exactly when the
board contains a four-in-a-row in one of the four directions. -/
lemma firstWin_isSome_iff (b : List (Option Nat)) :
    (firstWin b).isSome = true ↔ hasFourLine b := by
  unfold firstWin hasFourLine
  rcases hv : checkVertical b with _ | p
  · rcases hh : checkHorizontal b with _ | p
    · rcases hu : checkDiagUp b with _ | p
      · rcases hd : checkDiagDown b with _ | p
        · constructor
          · intro h
            exact absurd h (by simp)
          · intro h
            rcases h with h | h | h | h
            · exact absurd (checkVertical_isSome_iff b |>.mpr h) (by rw [hv]; simp)
            · exact absurd (checkHorizontal_isSome_iff b |>.mpr h) (by rw [hh]; simp)
            · exact absurd (checkDiagUp_isSome_iff b |>.mpr h) (by rw [hu]; simp)
            · exact absurd (checkDiagDown_isSome_iff b |>.mpr h) (by rw [hd]; simp)
        · simp only [Option.isSome_some, true_iff]
          exact .inr (.inr (.inr ((checkDiagDown_isSome_iff b).mp (by rw [hd]; rfl))))
      · simp only [Option.isSome_some, true_iff]
        exact .inr (.inr (.inl ((checkDiagUp_isSome_iff b).mp (by rw [hu]; rfl))))
    · simp only [Option.isSome_some, true_iff]
      exact .inr (.inl ((checkHorizontal_isSome_iff b).mp (by rw [hh]; rfl)))
  · simp only [Option.isSome_some, true_iff]
    exact .inl ((checkVertical_isSome_iff b).mp (by rw [hv]; rfl))

lemma check_state_winner_iff (s : Connect4State) (p : Nat) :
    check_state s = .Over (.Winner p) ↔ firstWin s.board = some p := by
  unfold check_state
  rcases h : firstWin s.board with _ | q
  · constructor
    · intro hh
      split at hh
      · simp_all
      · split at hh <;> simp at hh
    · intro hh
      exact absurd hh (by simp)
  · simp

/-- C6: `check_state` reports `Over (Winner p)` for some player `p` exactly
when the board contains four same-owner cells in a contiguous line in one of
the four directions; the scan covers every window of the 6×7 grid. -/
theorem check_state_winner_iff_hasFourLine (s : Connect4State) :
    (∃ p, check_state s = .Over (.Winner p)) ↔ hasFourLine s.board := by
  rw [← firstWin_isSome_iff]
  constructor
  · rintro ⟨p, hp⟩
    rw [(check_state_winner_iff s p).mp hp]
    rfl
  · intro h
    rcases hq : firstWin s.board with _ | q
    · rw [hq] at h
      exact absurd h (by simp)
    · exact ⟨q, (check_state_winner_iff s q).mpr hq⟩

/-- C7: on a board with no four-in-a-row, `check_state` returns `Over Tie`
exactly when the topmost cell of every column is occupied, and `InProgress`
exactly when some column's topmost cell is still empty. -/
theorem check_state_tie_or_inProgress (s : Connect4State) (hnl : ¬ hasFourLine s.board) :
    (check_state s = .Over .Tie ↔
      ∀ c, c < COLS → (cell s.board (c * ROWS + ROWS - 1)).isSome = true) ∧
    (check_state s = .InProgress ↔
      ∃ c, c < COLS ∧ cell s.board (c * ROWS + ROWS - 1) = none) := by
  have hfw : firstWin s.board = none := by
    rcases h : firstWin s.board with _ | q
    · rfl
    · exact absurd ((firstWin_isSome_iff s.board).mp (by rw [h]; rfl)) hnl
  unfold check_state
  rw [hfw]
  by_cases hall : (List.range COLS).all (fun col => (cell s.board (col * ROWS + ROWS - 1)).isSome)
  · rw [if_pos hall]
    rw [List.all_eq_true] at hall
    constructor
    · simp only [true_iff]
      intro c hc
      exact hall c (List.mem_range.mpr hc)
    · simp only [iff_false_intro (by simp : Connect4Check.Over .Tie ≠ Connect4Check.InProgress),
        false_iff]
      rintro ⟨c, hc, hnone⟩
      have := hall c (List.mem_range.mpr hc)
      rw [hnone] at this
      simp at this
  · rw [if_neg hall]
    constructor
    · constructor
      · intro hh
        exact absurd hh (by simp)
      · intro hforall
        exact absurd (List.all_eq_true.mpr fun c hc =>
          hforall c (List.mem_range.mp hc)) hall
    · simp only [true_iff]
      rw [List.all_eq_true] at hall
      push_neg at hall
      obtain ⟨c, hc, hfalse⟩ := hall
      refine ⟨c, List.mem_range.mp hc, ?_⟩
      rcases ho : cell s.board (c * ROWS + ROWS - 1) with _ | v
      · rfl
      · rw [ho] at hfalse
        simp at hfalse

/-- C7 witness: on the line-free full board `fullTieBoard` every column's top
cell is occupied and `check_state` answers `Over Tie`. -/
theorem check_state_tie_or_inProgress_witness :
    (check_state sFull = .Over .Tie ↔
      ∀ c, c < COLS → (cell sFull.board (c * ROWS + ROWS - 1)).isSome = true) ∧
    (check_state sFull = .InProgress ↔
      ∃ c, c < COLS ∧ cell sFull.board (c * ROWS + ROWS - 1) = none) :=
  check_state_tie_or_inProgress sFull
    (fun hl => absurd ((firstWin_isSome_iff sFull.board).mpr hl) (by decide))

/-! ### The action applier: first-empty-row lemmas -/

/-- Running `find?` over `range' s len` returns the least element satisfying `p`,
whenever one exists in the range. -/
lemma find?_range'_least (p : Nat → Bool) :
    ∀ len s i, s ≤ i → i < s + len → p i = true →
      ∃ j, (List.range' s len).find? p = some j ∧ s ≤ j ∧ j < s + len ∧ p j = true ∧
        ∀ m, s ≤ m → m < j → p m = false := by
  intro len
  induction len with
  | zero => omega
  | succ len ih =>
    intro s i hsi hilen hpi
    rw [List.range'_succ]
    rcases hp : p s with _ | _
    · rw [List.find?_cons_of_neg _ (by rw [hp]; simp)]
      have his : s + 1 ≤ i := by
        rcases Nat.eq_or_lt_of_le hsi with h | h
        · rw [h] at hp
          rw [hp] at hpi
          exact absurd hpi (by simp)
        · omega
      obtain ⟨j, hfind, hsj, hjlen, hpj, hmin⟩ := ih (s + 1) i his (by omega) hpi
      refine ⟨j, hfind, by omega, by omega, hpj, ?_⟩
      intro m hm hmj
      rcases Nat.eq_or_lt_of_le hm with h | h
      · rw [← h]; exact hp
      · exact hmin m h hmj
    · rw [List.find?_cons_of_pos _ hp]
      exact ⟨s, rfl, Nat.le_refl s, by omega, hp, fun m hm hms => by omega⟩

/-- The scan `dropRow?` finds the lowest empty row of the column, if the column has an
empty cell. -/
lemma dropRow?_least (b : List (Option Nat)) (col : Nat)
    (h : ∃ r, r < ROWS ∧ cell b (col * ROWS + r) = none) :
    ∃ row, dropRow? b col = some row ∧ row < ROWS ∧ cell b (col * ROWS + row) = none ∧
      ∀ r', r' < row → cell b (col * ROWS + r') ≠ none := by
  obtain ⟨r, hr, hcell⟩ := h
  unfold dropRow?
  rw [List.range_eq_range']
  obtain ⟨j, hfind, -, hjlen, hpj, hmin⟩ :=
    find?_range'_least (fun row => (cell b (col * ROWS + row)).isNone) ROWS 0 r (by omega)
      (by omega) (by simp [hcell])
  refine ⟨j, hfind, by omega, Option.isNone_iff_eq_none.mp (by simpa using hpj), ?_⟩
  intro r' hr' hnone
  have := hmin r' (by omega) hr'
  simp [hnone] at this

/-- The scan `dropRow?` fails exactly when every row of the column is occupied. -/
lemma dropRow?_eq_none_iff (b : List (Option Nat)) (col : Nat) :
    dropRow? b col = none ↔ ∀ r, r < ROWS → cell b (col * ROWS + r) ≠ none := by
  unfold dropRow?
  rw [List.find?_eq_none]
  constructor
  · intro h r hr hnone
    have := h r (List.mem_range.mpr hr)
    rw [hnone] at this
    simp at this
  · intro h r hr
    rcases ho : cell b (col * ROWS + r) with _ | v
    · exact absurd ho (h r (List.mem_range.mp hr))
    · simp

/-- Success shape of `apply_action`: with a valid column that has an empty
cell, the call writes `some next_player` into the lowest empty row, toggles
the player, and returns `Ok` of `check_state` on the updated state. -/
lemma apply_action_success (s : Connect4State) (a : Connect4Action)
    (hc : a.column < COLS)
    (hrow : ∃ r, r < ROWS ∧ cell s.board (a.column * ROWS + r) = none) :
    ∃ row, row < ROWS ∧ cell s.board (a.column * ROWS + row) = none ∧
      (∀ r', r' < row → cell s.board (a.column * ROWS + r') ≠ none) ∧
      apply_action s a =
        (⟨s.board.set (a.column * ROWS + row) (some s.next_player), 1 - s.next_player⟩,
          .ok (check_state
            ⟨s.board.set (a.column * ROWS + row) (some s.next_player), 1 - s.next_player⟩)) := by
  obtain ⟨row, hfind, hrlt, hcell, hmin⟩ := dropRow?_least s.board a.column hrow
  refine ⟨row, hrlt, hcell, hmin, ?_⟩
  unfold apply_action
  rw [if_neg (by omega), hfind]

/-- C4: a successful `apply_action` writes the pre-call `next_player` into the
lowest empty row of the column, replaces `next_player` by the other player,
and returns `Ok` of the terminal status recomputed on the updated state. -/
theorem apply_action_success_spec (s : Connect4State) (a : Connect4Action)
    (hc : a.column < COLS) (hnp : s.next_player < 2)
    (hrow : ∃ r, r < ROWS ∧ cell s.board (a.column * ROWS + r) = none) :
    ∃ row, row < ROWS ∧ cell s.board (a.column * ROWS + row) = none ∧
      (∀ r', r' < row → cell s.board (a.column * ROWS + r') ≠ none) ∧
      apply_action s a =
        (⟨s.board.set (a.column * ROWS + row) (some s.next_player), 1 - s.next_player⟩,
          .ok (check_state
            ⟨s.board.set (a.column * ROWS + row) (some s.next_player), 1 - s.next_player⟩)) ∧
      1 - s.next_player < 2 ∧ 1 - s.next_player ≠ s.next_player := by
  obtain ⟨row, hrlt, hcell, hmin, happ⟩ := apply_action_success s a hc hrow
  exact ⟨row, hrlt, hcell, hmin, happ, by omega, by omega⟩

/-- C4 witness: dropping into column 3 of the empty board writes player 0's
piece at the bottom of column 3 and hands the turn to player 1. -/
theorem apply_action_success_spec_witness :
    ∃ row, row < ROWS ∧ cell newGame.board (3 * ROWS + row) = none ∧
      (∀ r', r' < row → cell newGame.board (3 * ROWS + r') ≠ none) ∧
      apply_action newGame ⟨3⟩ =
        (⟨newGame.board.set (3 * ROWS + row) (some newGame.next_player),
            1 - newGame.next_player⟩,
          .ok (check_state
            ⟨newGame.board.set (3 * ROWS + row) (some newGame.next_player),
              1 - newGame.next_player⟩)) ∧
      1 - newGame.next_player < 2 ∧ 1 - newGame.next_player ≠ newGame.next_player :=
  apply_action_success_spec newGame ⟨3⟩ (by decide) (by decide) ⟨0, by decide, by decide⟩

/-- C5: `apply_action` fails with `UnknownColumn` exactly when the column
index is out of `[0, COLS)`, fails with `FullColumn` exactly when the column is
in range and every row of it is occupied, and on every failure the returned
state (board and `next_player`) is the unchanged input state. -/
theorem apply_action_failure_spec (s : Connect4State) (a : Connect4Action) :
    ((apply_action s a).2 = .error (.UnknownColumn a.column) ↔ COLS ≤ a.column) ∧
    ((apply_action s a).2 = .error (.FullColumn a.column) ↔
      a.column < COLS ∧ ∀ r, r < ROWS → cell s.board (a.column * ROWS + r) ≠ none) ∧
    (∀ e, (apply_action s a).2 = .error e → (apply_action s a).1 = s) := by
  unfold apply_action
  by_cases hc : COLS ≤ a.column
  · rw [if_pos hc]
    refine ⟨by simp [hc], ?_, fun e _ => rfl⟩
    constructor
    · intro h
      exact absurd h (by simp)
    · rintro ⟨hlt, -⟩
      omega
  · rw [if_neg hc]
    rcases hd : dropRow? s.board a.column with _ | row
    · refine ⟨by simp [hc], ?_, fun e _ => rfl⟩
      constructor
      · intro _
        exact ⟨by omega, (dropRow?_eq_none_iff s.board a.column).mp hd⟩
      · intro _
        rfl
    · have hcell := List.find?_some hd
      have hrlt := List.mem_range.mp (List.mem_of_find?_eq_some hd)
      refine ⟨by simp; omega, ?_, by simp⟩
      constructor
      · intro h
        exact absurd h (by simp)
      · rintro ⟨-, hocc⟩
        refine absurd ?_ (hocc row hrlt)
        simpa using hcell

/-! ### Board update lemmas -/

lemma cell_set_self (b : List (Option Nat)) (i : Nat) (v : Option Nat) (h : i < b.length) :
    cell (b.set i v) i = v := by
  unfold cell
  rw [List.getD_eq_getElem?_getD, List.getElem?_set_self (by simpa using h)]
  rfl

lemma cell_set_ne (b : List (Option Nat)) (i j : Nat) (v : Option Nat) (h : i ≠ j) :
    cell (b.set i v) j = cell b j := by
  unfold cell
  rw [List.getD_eq_getElem?_getD, List.getD_eq_getElem?_getD, List.getElem?_set_ne h]

lemma occupiedCount_set (b : List (Option Nat)) (i : Nat) (x : Nat) :
    ∀ (_ : i < b.length) (_ : cell b i = none),
      occupiedCount (b.set i (some x)) = occupiedCount b + 1 := by
  unfold occupiedCount cell
  induction b generalizing i with
  | nil => intro h; simp at h
  | cons a t ih =>
    intro h he
    cases i with
    | zero =>
      obtain rfl : a = none := by simpa using he
      simp [List.countP_cons]
    | succ i =>
      have hih := ih i (by simpa using h) (by simpa using he)
      simp only [List.set_cons_succ, List.countP_cons]
      omega

/-- Per-column index arithmetic: two in-column positions coincide only when
column and row coincide. -/
lemma colRow_index_inj (c c' r r' : Nat) (hr : r < ROWS) (hr' : r' < ROWS)
    (h : c * ROWS + r = c' * ROWS + r') : c = c' ∧ r = r' := by
  unfold ROWS at *
  omega

/-- C9: a successful `apply_action` adds exactly one occupied cell and
preserves the bottom-up fill invariant of every column. -/
theorem apply_action_occupied_and_inv (s : Connect4State) (a : Connect4Action)
    (s' : Connect4State) (ch : Connect4Check)
    (hlen : s.board.length = ROWS * COLS) (hinv : bottomUpInv s.board)
    (hap : apply_action s a = (s', .ok ch)) :
    occupiedCount s'.board = occupiedCount s.board + 1 ∧ bottomUpInv s'.board := by
  have hc : a.column < COLS := by
    by_contra hge
    unfold apply_action at hap
    rw [if_pos (by omega)] at hap
    simp at hap
  have hrow : ∃ r, r < ROWS ∧ cell s.board (a.column * ROWS + r) = none := by
    rcases hd : dropRow? s.board a.column with _ | row
    · unfold apply_action at hap
      rw [if_neg (by omega), hd] at hap
      simp at hap
    · exact ⟨row, List.mem_range.mp (List.mem_of_find?_eq_some hd),
        Option.isNone_iff_eq_none.mp (by simpa using List.find?_some hd)⟩
  obtain ⟨row, hrlt, hcell, hmin, happ⟩ := apply_action_success s a hc hrow
  rw [happ] at hap
  obtain rfl : s' = ⟨s.board.set (a.column * ROWS + row) (some s.next_player),
      1 - s.next_player⟩ := (congrArg Prod.fst hap).symm
  have hidx : a.column * ROWS + row < s.board.length := by
    rw [hlen]; unfold ROWS COLS at *; omega
  constructor
  · exact occupiedCount_set s.board (a.column * ROWS + row) s.next_player hidx hcell
  · intro c' hc' r hr hocc
    by_cases h0 : a.column * ROWS + row = c' * ROWS + r
    · rw [h0, cell_set_self s.board _ _ (h0 ▸ hidx)]
      rfl
    · rw [cell_set_ne _ _ _ _ h0]
      by_cases h1 : a.column * ROWS + row = c' * ROWS + (r + 1)
      · obtain ⟨rfl, hreq⟩ := colRow_index_inj _ _ _ _ hrlt (by unfold ROWS at *; omega) h1
        have : cell s.board (a.column * ROWS + r) ≠ none := hmin r (by omega)
        rcases ho : cell s.board (a.column * ROWS + r) with _ | v
        · exact absurd ho this
        · rfl
      · rw [cell_set_ne _ _ _ _ h1] at hocc
        exact hinv c' hc' r hr hocc

/-- C9 witness: dropping into column 3 of the empty board adds one occupied
cell and keeps the bottom-up invariant. -/
theorem apply_action_occupied_and_inv_witness :
    occupiedCount ((apply_action newGame ⟨3⟩).1.board) = occupiedCount newGame.board + 1 ∧
      bottomUpInv ((apply_action newGame ⟨3⟩).1.board) :=
  apply_action_occupied_and_inv newGame ⟨3⟩ (apply_action newGame ⟨3⟩).1 .InProgress
    (by decide) (by decide) (by decide)

lemma check_action_true_iff (s : Connect4State) (a : Connect4Action) :
    check_action s a = true ↔
      a.column < COLS ∧ cell s.board (a.column * ROWS + ROWS - 1) = none := by
  unfold check_action
  by_cases hc : COLS ≤ a.column
  · rw [if_pos hc]
    simp only [Bool.false_eq_true, false_iff]
    rintro ⟨hlt, -⟩
    omega
  · rw [if_neg hc]
    rw [Option.isNone_iff_eq_none]
    constructor
    · exact fun h => ⟨by omega, h⟩
    · exact fun h => h.2

/-- Under the bottom-up invariant, an occupied column top forces the whole
column to be occupied. -/
lemma column_full_of_top (b : List (Option Nat)) (hinv : bottomUpInv b) (c : Nat)
    (hc : c < COLS) (htop : (cell b (c * ROWS + ROWS - 1)).isSome = true) :
    ∀ r, r < ROWS → (cell b (c * ROWS + r)).isSome = true := by
  have hdown : ∀ k, k < ROWS → (cell b (c * ROWS + (ROWS - 1 - k))).isSome = true := by
    intro k
    induction k with
    | zero =>
      intro _
      have : c * ROWS + (ROWS - 1 - 0) = c * ROWS + ROWS - 1 := by unfold ROWS; omega
      rw [this]
      exact htop
    | succ k ih =>
      intro hk
      have hup := ih (by omega)
      have harith : ROWS - 1 - k = (ROWS - 1 - (k + 1)) + 1 := by unfold ROWS at *; omega
      rw [harith] at hup
      exact hinv c hc (ROWS - 1 - (k + 1)) (by unfold ROWS at *; omega) hup
  intro r hr
  have := hdown (ROWS - 1 - r) (by omega)
  have harith : ROWS - 1 - (ROWS - 1 - r) = r := by omega
  rw [harith] at this
  exact this

/-- C10: on states satisfying the bottom-up fill invariant, `check_action`
returns `true` exactly when `apply_action` succeeds. -/
theorem check_action_iff_apply_action_ok (s : Connect4State) (a : Connect4Action)
    (hinv : bottomUpInv s.board) :
    check_action s a = true ↔ ∃ s' ch, apply_action s a = (s', .ok ch) := by
  constructor
  · intro h
    obtain ⟨hc, htop⟩ := (check_action_true_iff s a).mp h
    obtain ⟨row, -, -, -, happ⟩ :=
      apply_action_success s a hc ⟨ROWS - 1, by unfold ROWS; omega, by
        have : a.column * ROWS + (ROWS - 1) = a.column * ROWS + ROWS - 1 := by
          unfold ROWS; omega
        rw [this]; exact htop⟩
    exact ⟨_, _, happ⟩
  · rintro ⟨s', ch, hap⟩
    have hc : a.column < COLS := by
      by_contra hge
      unfold apply_action at hap
      rw [if_pos (by omega)] at hap
      simp at hap
    obtain ⟨row, hrlt, hcell⟩ : ∃ r, r < ROWS ∧ cell s.board (a.column * ROWS + r) = none := by
      rcases hd : dropRow? s.board a.column with _ | row
      · unfold apply_action at hap
        rw [if_neg (by omega), hd] at hap
        simp at hap
      · exact ⟨row, List.mem_range.mp (List.mem_of_find?_eq_some hd),
          Option.isNone_iff_eq_none.mp (by simpa using List.find?_some hd)⟩
    rw [check_action_true_iff]
    refine ⟨hc, ?_⟩
    rcases htop : cell s.board (a.column * ROWS + ROWS - 1) with _ | v
    · rfl
    · have := column_full_of_top s.board hinv a.column hc (by rw [htop]; rfl) row hrlt
      rw [hcell] at this
      simp at this

/-- C10 witness: on the empty board, column 0 is legal and `apply_action`
succeeds on it. -/
theorem check_action_iff_apply_action_ok_witness :
    check_action newGame ⟨0⟩ = true ↔ ∃ s' ch, apply_action newGame ⟨0⟩ = (s', .ok ch) :=
  check_action_iff_apply_action_ok newGame ⟨0⟩ (by decide)

/-! ### Game-loop termination -/

lemma occupiedCount_lt_length (b : List (Option Nat)) (i : Nat) (hi : i < b.length)
    (hnone : cell b i = none) : occupiedCount b < b.length := by
  rcases Nat.lt_or_ge (occupiedCount b) b.length with h | h
  · exact h
  · exfalso
    have heq : occupiedCount b = b.length :=
      Nat.le_antisymm (List.countP_le_length _) h
    have hall := List.countP_eq_length.mp heq
    have hmem : b[i] ∈ b := List.getElem_mem hi
    have hbi : b[i] = none := by
      unfold cell at hnone
      rw [List.getD_eq_getElem?_getD, List.getElem?_eq_getElem hi] at hnone
      simpa using hnone
    have h2 := hall _ hmem
    rw [hbi] at h2
    simp at h2

lemma hasLegal_of_inProgress (s : Connect4State) (h : check_state s = .InProgress) :
    hasLegal s := by
  unfold check_state at h
  split at h
  · simp at h
  · split at h
    · simp at h
    · rename_i hall
      rw [List.all_eq_true] at hall
      push_neg at hall
      obtain ⟨c, hc, hfalse⟩ := hall
      refine ⟨c, List.mem_range.mp hc, ?_⟩
      rw [check_action_true_iff]
      refine ⟨List.mem_range.mp hc, ?_⟩
      rcases ho : cell s.board (c * ROWS + ROWS - 1) with _ | v
      · rfl
      · rw [ho] at hfalse
        simp at hfalse

/-- C2 (amended): from any 42-cell state that still has a legal column, with
agents that answer a legal column whenever one exists (as `rand_agent` does
whenever its rejection loop returns), the game loop applies at most
`ROWS * COLS - occupiedCount` further moves — in particular at most
`ROWS * COLS` in total — and returns an `Ok` outcome. -/
theorem play_terminates (blue red : Connect4State → Connect4Action)
    (hb : ∀ t, hasLegal t → check_action t (blue t) = true)
    (hr : ∀ t, hasLegal t → check_action t (red t) = true) :
    ∀ fuel s, s.board.length = ROWS * COLS → hasLegal s →
      ROWS * COLS - occupiedCount s.board ≤ fuel →
      ∃ result, playFuel blue red fuel s = some (.ok result) := by
  intro fuel
  induction fuel with
  | zero =>
    intro s hlen hleg hcnt
    exfalso
    obtain ⟨c, hc, hca⟩ := hleg
    obtain ⟨-, htop⟩ := (check_action_true_iff s ⟨c⟩).mp hca
    have hlt := occupiedCount_lt_length s.board (c * ROWS + ROWS - 1)
      (by rw [hlen]; unfold ROWS COLS at *; omega) htop
    rw [hlen] at hlt
    omega
  | succ fuel ih =>
    intro s hlen hleg hcnt
    have haction : check_action s (if s.next_player = 0 then blue s else red s) = true := by
      by_cases h0 : s.next_player = 0
      · rw [if_pos h0]
        exact hb s hleg
      · rw [if_neg h0]
        exact hr s hleg
    obtain ⟨hc, htop⟩ :=
      (check_action_true_iff s (if s.next_player = 0 then blue s else red s)).mp haction
    obtain ⟨row, hrlt, hcell, hmin, happ⟩ :=
      apply_action_success s (if s.next_player = 0 then blue s else red s) hc
        ⟨ROWS - 1, by unfold ROWS; omega, by
          have he : (if s.next_player = 0 then blue s else red s).column * ROWS + (ROWS - 1) =
              (if s.next_player = 0 then blue s else red s).column * ROWS + ROWS - 1 := by
            unfold ROWS
            omega
          rw [he]
          exact htop⟩
    have hidx : (if s.next_player = 0 then blue s else red s).column * ROWS + row <
        s.board.length := by
      rw [hlen]
      unfold ROWS COLS at *
      omega
    have hcnt1 := occupiedCount_set s.board _ s.next_player hidx hcell
    unfold playFuel
    rw [happ]
    rcases hcs : check_state ⟨s.board.set
        ((if s.next_player = 0 then blue s else red s).column * ROWS + row)
        (some s.next_player), 1 - s.next_player⟩ with _ | result
    · have hleg' := hasLegal_of_inProgress _ hcs
      obtain ⟨result, hres⟩ := ih
        ⟨s.board.set ((if s.next_player = 0 then blue s else red s).column * ROWS + row)
          (some s.next_player), 1 - s.next_player⟩
        (by simpa using hlen) hleg'
        (by
          have hocc : occupiedCount (s.board.set
              ((if s.next_player = 0 then blue s else red s).column * ROWS + row)
              (some s.next_player)) = occupiedCount s.board + 1 := hcnt1
          simp only [hocc]
          omega)
      refine ⟨result, ?_⟩
      simp only [hcs]
      exact hres
    · refine ⟨result, ?_⟩
      simp only [hcs]

lemma firstLegalAgent_legal (t : Connect4State) (h : hasLegal t) :
    check_action t (firstLegalAgent t) = true := by
  obtain ⟨c, hc, hca⟩ := h
  unfold firstLegalAgent
  rcases hf : (List.range COLS).find? (fun c => check_action t ⟨c⟩) with _ | j
  · rw [List.find?_eq_none] at hf
    exact absurd hca (by simpa using hf c (List.mem_range.mpr hc))
  · simpa using List.find?_some hf

/-- C2 witness: a full game between two first-legal-column agents from the
empty board finishes with an outcome within `ROWS * COLS` applied moves. -/
theorem play_terminates_witness :
    ∃ result, playFuel firstLegalAgent firstLegalAgent (ROWS * COLS) newGame =
      some (.ok result) :=
  play_terminates firstLegalAgent firstLegalAgent
    (fun t ht => firstLegalAgent_legal t ht) (fun t ht => firstLegalAgent_legal t ht)
    (ROWS * COLS) newGame (by decide) ⟨0, by decide, by decide⟩ (Nat.sub_le _ _)

/-- On the full board no sampled column ever passes `check_action`, so the
rejection loop of `rand_agent` returns nothing at any fuel and any stream
position: the real loop never terminates there. -/
lemma randAgentLoop_none_on_full (rng : Nat → Nat) :
    ∀ t k, randAgentLoop rng t k sFull = none := by
  intro t
  induction t with
  | zero => intro k; rfl
  | succ t ih =>
    intro k
    have hfalse : check_action sFull ⟨rng k % COLS⟩ = false := by
      have hlt : rng k % COLS < COLS := Nat.mod_lt _ (by decide)
      have hall : ∀ c, c < COLS → check_action sFull ⟨c⟩ = false := by decide
      exact hall _ hlt
    unfold randAgentLoop
    rw [if_neg (by simp [hfalse])]
    exact ih (k + 1)

set_option maxRecDepth 100000 in
/-- C2 counterexample: the in-progress state `s41` offers the legal column 6,
whose successor `sFull` is a full tie board; a simulation launched from that
successor queries `rand_agent`, whose rejection loop finds no legal column, so
the game loop applies no move and never returns an outcome — here modelled by
`playOpt` yielding `none` even with fuel `ROWS * COLS + 1` and 1000 sampling
attempts for the agent. -/
theorem play_simulation_no_outcome_cex :
    check_state s41 = .InProgress ∧ check_action s41 ⟨6⟩ = true ∧
      apply_action s41 ⟨6⟩ = (sFull, .ok (.Over .Tie)) ∧
      playOpt (randAgentO rngZero 1000) (randAgentO rngZero 1000) (ROWS * COLS + 1)
        sFull = none := by
  refine ⟨by decide, by decide, by decide, by decide⟩

set_option maxRecDepth 100000 in
/-- C3 evaluation: `play` queries an agent on its input state before any
terminal check, so the simulation `mcts_agent` launches from the terminal
successor `sFull` of `s41`'s only legal column invokes `rand_agent` on a
terminal state (on which its rejection loop then never returns). -/
theorem agent_queried_on_terminal_state :
    check_state s41 = .InProgress ∧ check_action s41 ⟨6⟩ = true ∧
      apply_action s41 ⟨6⟩ = (sFull, .ok (.Over .Tie)) ∧
      check_state sFull = .Over .Tie ∧
      sFull ∈ agentQueryStates (randAgentO rngZero 1000) (randAgentO rngZero 1000)
        (ROWS * COLS + 1) sFull := by
  refine ⟨by decide, by decide, by decide, by decide, by decide⟩

/-! ### The rollout-evaluation agent's selection -/

lemma maxByLast_spec (l : List (Nat × ℚ)) (hpw : l.Pairwise fun p q => p.1 < q.1)
    (hne : l ≠ []) :
    ∃ x, maxByLast l = some x ∧ x ∈ l ∧ (∀ y ∈ l, y.2 ≤ x.2) ∧
      ∀ y ∈ l, y.2 = x.2 → y.1 ≤ x.1 := by
  induction l with
  | nil => exact absurd rfl hne
  | cons x xs ih =>
    rw [List.pairwise_cons] at hpw
    by_cases hxe : xs = []
    · subst hxe
      refine ⟨x, rfl, List.mem_cons_self x [], ?_, ?_⟩
      · intro y hy
        rw [List.mem_singleton] at hy
        rw [hy]
      · intro y hy _
        rw [List.mem_singleton] at hy
        rw [hy]
    · obtain ⟨a, ha, hamem, hbound, htie⟩ := ih hpw.2 hxe
      have hstep : maxByLast (x :: xs) = if a.2 < x.2 then some x else some a := by
        unfold maxByLast
        rw [ha]
      by_cases hlt : a.2 < x.2
      · rw [hstep, if_pos hlt]
        refine ⟨x, rfl, List.mem_cons_self x xs, ?_, ?_⟩
        · intro y hy
          rcases List.mem_cons.mp hy with rfl | hy2
          · exact le_refl _
          · exact le_of_lt (lt_of_le_of_lt (hbound y hy2) hlt)
        · intro y hy hyx
          rcases List.mem_cons.mp hy with rfl | hy2
          · exact le_refl _
          · have h1 := hbound y hy2
            rw [hyx] at h1
            exact absurd h1 (not_le.mpr hlt)
      · rw [hstep, if_neg hlt]
        refine ⟨a, rfl, List.mem_cons_of_mem x hamem, ?_, ?_⟩
        · intro y hy
          rcases List.mem_cons.mp hy with rfl | hy2
          · exact not_lt.mp hlt
          · exact hbound y hy2
        · intro y hy hya
          rcases List.mem_cons.mp hy with rfl | hy2
          · exact le_of_lt (hpw.1 a hamem)
          · exact htie y hy2 hya

lemma mcts_scored_pairwise (s : Connect4State) (score : Nat → ℚ) :
    ((mcts_candidates s).map fun c => (c, score c)).Pairwise fun p q => p.1 < q.1 := by
  rw [List.pairwise_map]
  exact ((List.pairwise_lt_range COLS).filter _).imp fun h => h

/-- C1 (amended): whenever at least one legal column exists, `mcts_agent`
returns a legal column whose score is maximal among the legal columns, and
among equally-scored maxima it returns the LAST one in enumeration order
(the highest column index) — rayon's documented `max_by` tie-break. -/
theorem mcts_agent_argmax (sims : Nat → List Connect4Result) (s : Connect4State)
    (h : mcts_candidates s ≠ []) :
    ∃ c, mcts_agent sims s = some ⟨c⟩ ∧ c ∈ mcts_candidates s ∧
      (∀ c' ∈ mcts_candidates s,
        simScore s.next_player (sims c') ≤ simScore s.next_player (sims c)) ∧
      ∀ c' ∈ mcts_candidates s,
        simScore s.next_player (sims c') = simScore s.next_player (sims c) → c' ≤ c := by
  obtain ⟨x, hmax, hmem, hbound, htie⟩ :=
    maxByLast_spec ((mcts_candidates s).map fun c => (c, simScore s.next_player (sims c)))
      (mcts_scored_pairwise s _) (by simpa using h)
  rw [List.mem_map] at hmem
  obtain ⟨c, hcmem, hcx⟩ := hmem
  refine ⟨c, ?_, hcmem, ?_, ?_⟩
  · unfold mcts_agent
    rw [hmax, ← hcx]
    rfl
  · intro c' hc'
    have h1 := hbound _ (List.mem_map_of_mem _ hc')
    rw [← hcx] at h1
    exact h1
  · intro c' hc' he
    have h2 := htie _ (List.mem_map_of_mem _ hc')
    rw [← hcx] at h2
    exact h2 he

/-- C1 witness: on `s41` (exactly one legal column, column 6) with all-tie
simulations, the agent returns a maximal-scoring legal column. -/
theorem mcts_agent_argmax_witness :
    ∃ c, mcts_agent simTies s41 = some ⟨c⟩ ∧ c ∈ mcts_candidates s41 ∧
      (∀ c' ∈ mcts_candidates s41,
        simScore s41.next_player (simTies c') ≤ simScore s41.next_player (simTies c)) ∧
      ∀ c' ∈ mcts_candidates s41,
        simScore s41.next_player (simTies c') = simScore s41.next_player (simTies c) →
          c' ≤ c :=
  mcts_agent_argmax simTies s41 (by decide)

lemma simScore_simTies (p c : Nat) : simScore p (simTies c) = 0 := by
  simp [simScore, simTies, simValue]

/-- C1 counterexample: on the empty board with all-tie simulations every legal
column (0 through 6) attains the same top score 0; first-in-enumeration-order
tie-breaking would return column 0, but the agent returns column 6 — the last
maximal candidate. -/
theorem mcts_agent_first_tiebreak_cex :
    mcts_candidates newGame = [0, 1, 2, 3, 4, 5, 6] ∧
      ((mcts_candidates newGame).map fun c => simScore newGame.next_player (simTies c)) =
        [0, 0, 0, 0, 0, 0, 0] ∧
      mcts_agent simTies newGame = some ⟨6⟩ := by
  have hcand : mcts_candidates newGame = [0, 1, 2, 3, 4, 5, 6] := by decide
  refine ⟨hcand, ?_, ?_⟩
  · rw [hcand]
    simp [simScore_simTies]
  · unfold mcts_agent
    rw [hcand]
    simp [simScore_simTies, maxByLast]

/-! ### The rollout score formula -/

lemma winsCount_cons_winner (player w : Nat) (t : List Connect4Result) :
    winsCount player (.Winner w :: t) =
      winsCount player t + if w = player then 1 else 0 := by
  unfold winsCount
  rw [List.countP_cons]
  by_cases hw : w = player <;> simp [hw]

lemma lossesCount_cons_winner (player w : Nat) (t : List Connect4Result) :
    lossesCount player (.Winner w :: t) =
      lossesCount player t + if w = player then 0 else 1 := by
  unfold lossesCount
  rw [List.countP_cons]
  by_cases hw : w = player <;> simp [hw]

lemma tiesCount_cons_winner (w : Nat) (t : List Connect4Result) :
    tiesCount (.Winner w :: t) = tiesCount t := by
  unfold tiesCount
  rw [List.countP_cons]
  simp

lemma winsCount_cons_tie (player : Nat) (t : List Connect4Result) :
    winsCount player (.Tie :: t) = winsCount player t := by
  unfold winsCount
  rw [List.countP_cons]
  simp

lemma lossesCount_cons_tie (player : Nat) (t : List Connect4Result) :
    lossesCount player (.Tie :: t) = lossesCount player t := by
  unfold lossesCount
  rw [List.countP_cons]
  simp

lemma tiesCount_cons_tie (t : List Connect4Result) :
    tiesCount (.Tie :: t) = tiesCount t + 1 := by
  unfold tiesCount
  rw [List.countP_cons]
  simp

lemma sum_simValue_eq (player : Nat) :
    ∀ l : List Connect4Result,
      (l.map (simValue player)).sum =
        (winsCount player l : Int) - (lossesCount player l : Int) := by
  intro l
  induction l with
  | nil => simp [winsCount, lossesCount]
  | cons r t ih =>
    rw [List.map_cons, List.sum_cons]
    rcases r with w | _
    · rw [winsCount_cons_winner, lossesCount_cons_winner]
      by_cases hw : w = player
      · rw [if_pos hw, if_pos hw]
        have hv : simValue player (.Winner w) = 1 := by simp [simValue, hw]
        rw [hv]
        omega
      · rw [if_neg hw, if_neg hw]
        have hv : simValue player (.Winner w) = -1 := by simp [simValue, hw]
        rw [hv]
        omega
    · rw [winsCount_cons_tie, lossesCount_cons_tie]
      have hv : simValue player .Tie = 0 := rfl
      rw [hv]
      omega

lemma counts_partition (player : Nat) :
    ∀ l : List Connect4Result,
      winsCount player l + lossesCount player l + tiesCount l = l.length := by
  intro l
  induction l with
  | nil => rfl
  | cons r t ih =>
    rw [List.length_cons]
    rcases r with w | _
    · rw [winsCount_cons_winner, lossesCount_cons_winner, tiesCount_cons_winner]
      by_cases hw : w = player
      · rw [if_pos hw, if_pos hw]
        omega
      · rw [if_neg hw, if_neg hw]
        omega
    · rw [winsCount_cons_tie, lossesCount_cons_tie, tiesCount_cons_tie]
      omega

/-- C8: over any list of 100 categorized simulation outcomes, the spec's score
`(wins − losses) / (wins + losses + ties)` equals the code's sum of
`+1 / −1 / 0` contributions divided by the constant 100. -/
theorem score_formula_eq (player : Nat) (l : List Connect4Result)
    (hlen : l.length = 100) : scoreSpec player l = simScore player l := by
  unfold scoreSpec simScore
  rw [sum_simValue_eq player l]
  have hd : (winsCount player l : ℚ) + (lossesCount player l : ℚ) + (tiesCount l : ℚ) =
      100 := by
    rw [← Nat.cast_add, ← Nat.cast_add, counts_partition player l, hlen]
    norm_num
  rw [hd]
  have hn : (((winsCount player l : Int) - (lossesCount player l : Int) : Int) : ℚ) =
      (winsCount player l : ℚ) - (lossesCount player l : ℚ) := by
    push_cast
    ring
  rw [hn]

/-- C8 witness: 100 all-tie simulations give score 0 by both formulas. -/
theorem score_formula_eq_witness :
    scoreSpec 0 (List.replicate 100 .Tie) = simScore 0 (List.replicate 100 .Tie) :=
  score_formula_eq 0 (List.replicate 100 .Tie) (by simp)

end Chaos
